import Mathlib

/-!
# Verification of the EpochManager repository

A shallow embedding of the repository's core components, together with
theorems settling the specification claims about them:

* `AtomicStack` (src/AtomicStack.h) — the lock-free LIFO stack, modelled
  sequentially: the stack is the list of values from head to bottom, `Push`
  is a CAS-prepend and `Pop` a CAS-unlink of the head.
* `LW` (src/LocalWriteEM.h, class `LocalWriteEM`) — the local-write epoch
  manager: per-core epoch slots, a global epoch counter, and the single
  linked list of retired (garbage) nodes.
* `GEM` (src/GlobalWriteEM.h, class `EpochManager`) — the global epoch
  manager's epoch list and its `ClearEpoch` sweep.
* `VLP` (src/VarLenPool.h, class `VarLenPool`) — the chunked bump
  allocator, with addresses modelled as natural numbers.

Counters in the source are `uint64_t` (epochs) and `uint32_t`
(chunk refcount/offset); they are modelled as `Nat`.  The program only
ever moves these counters by `±1` per retired object or per collector
tick, so no arithmetic in the source depends on wraparound.
-/

namespace AtomicStack

/-- `AtomicStack<T>::Push` (src/AtomicStack.h lines 68-78): allocate a node
whose `next_p` is the current head and CAS it in.  Sequentially the CAS
succeeds at once, so the stack gains `v` at the head. -/
def push (s : List α) (v : α) : List α := v :: s

/-- `AtomicStack<T>::Pop` (src/AtomicStack.h lines 85-101).  The source
loads `old_p = head_p` and immediately evaluates `old_p->next_p` with no
null check; on an empty stack (`head_p == nullptr`) this dereferences a
null pointer.  `none` marks that null dereference.  On a non-empty stack
the CAS unlinks the head node and the popped value is `data = old_p->data`. -/
def pop : List α → Option (α × List α)
  | [] => none
  | v :: rest => some (v, rest)

/-- Pop `n` times, collecting the popped values in order; stops early on
the crash case. -/
def popN : Nat → List α → List α × List α
  | 0, s => ([], s)
  | n + 1, s =>
    match pop s with
    | none => ([], s)
    | some (v, s2) =>
      let (vs, s3) := popN n s2
      (v :: vs, s3)

/-- Push every element of `vs` in order (left to right). -/
def pushAll (s : List α) (vs : List α) : List α := vs.foldl push s

end AtomicStack

namespace LW

/-- `LocalWriteEM::GarbageNode` (src/LocalWriteEM.h lines 96-132): the epoch
at which the payload was retired, plus the payload pointer (modelled as a
natural-number identifier). -/
structure GarbageNode where
  deleted_epoch : Nat
  garbage_p : Nat
  deriving Repr, DecidableEq

/-- State of `LocalWriteEM<core_num, GarbageType>`: the `core_num` padded
per-core counters, the global `epoch_counter`, and the garbage list hanging
off `garbage_head_p` (list head = most recently CAS-prepended node). -/
structure State where
  per_core : List Nat
  epoch : Nat
  garbage : List GarbageNode
  deriving Repr, DecidableEq

/-- The constructor `LocalWriteEM()` (lines 184-206): every per-core
counter 0, epoch counter 0, empty garbage list. -/
def init (core_num : Nat) : State :=
  { per_core := List.replicate core_num 0, epoch := 0, garbage := [] }

/-- `AnnounceEnter(core_id)` (lines 313-323): store the global epoch
counter into slot `core_id`. -/
def announceEnter (s : State) (core_id : Nat) : State :=
  { s with per_core := s.per_core.set core_id s.epoch }

/-- `AddGarbageNode(garbage_p)` (lines 335-347): wrap the payload with the
current epoch counter and CAS-prepend it onto `garbage_head_p`
(`GarbageNode::LinkTo`). -/
def addGarbageNode (s : State) (p : Nat) : State :=
  { s with garbage := ⟨s.epoch, p⟩ :: s.garbage }

/-- `GotoNextEpoch()` (lines 365-370): `epoch_counter->fetch_add(1)`. -/
def gotoNextEpoch (s : State) : State :=
  { s with epoch := s.epoch + 1 }

/-- One iteration of the min-epoch loop in `DoGC()` (lines 400-406):
`if(counter < min_epoch) min_epoch = counter;`. -/
def minStep (m x : Nat) : Nat := if x < m then x else m

/-- The min-epoch computation at the start of `DoGC()` (lines 394-406):
start from slot 0 and fold the comparison over the remaining
`core_num - 1` slots. -/
def minEpoch (s : State) : Nat :=
  match s.per_core with
  | [] => 0
  | c :: rest => rest.foldl minStep c

/-- The unlink loop of `DoGC()` (lines 418-441), acting on the successors
of the head node: a successor whose `deleted_epoch < min_epoch` is unlinked
(by rewriting the predecessor's `next_p`) and its payload freed; any other
successor is kept and becomes the new predecessor.  Returns the surviving
successors (in order) and the freed payloads (in traversal order). -/
def gcScan (m : Nat) : List GarbageNode → List GarbageNode × List Nat
  | [] => ([], [])
  | n :: rest =>
    let (kept, freed) := gcScan m rest
    if n.deleted_epoch < m then (kept, n.garbage_p :: freed)
    else (n :: kept, freed)

/-- `DoGC()` (lines 394-444): compute the min epoch over all per-core
slots, then walk the garbage list.  The head node itself is never unlinked
or freed; the scan works on its successors.  Returns the new state and the
payloads passed to `FreeGarbageNode`. -/
def doGC (s : State) : State × List Nat :=
  match s.garbage with
  | [] => (s, [])
  | h :: t =>
    let (kept, freed) := gcScan (minEpoch s) t
    ({ s with garbage := h :: kept }, freed)

/-- `FreeAllGarbage()` (lines 245-263), run by the destructor: free every
remaining garbage node's payload unconditionally and reset the list. -/
def freeAllGarbage (s : State) : State × List Nat :=
  ({ s with garbage := [] }, s.garbage.map GarbageNode.garbage_p)

/-- The public operations a running manager accepts. -/
inductive Op where
  | announce (core_id : Nat)
  | add (p : Nat)
  | nextEpoch
  | gc
  deriving Repr, DecidableEq

/-- One operation; returns the new state and the payloads freed by it. -/
def step (s : State) : Op → State × List Nat
  | .announce i => (announceEnter s i, [])
  | .add p => (addGarbageNode s p, [])
  | .nextEpoch => (gotoNextEpoch s, [])
  | .gc => doGC s

/-- Run a sequence of operations, concatenating the freed payloads in
order. -/
def run (s : State) : List Op → State × List Nat
  | [] => (s, [])
  | op :: ops =>
    let (s2, f) := step s op
    let (s3, fs) := run s2 ops
    (s3, f ++ fs)

end LW

namespace LW

/-- The `DoGC` successor scan keeps exactly the successors whose
`deleted_epoch` is not below the min epoch (in order) and frees exactly
the payloads of the others (in traversal order). -/
theorem gcScan_eq_filter (m : Nat) (l : List GarbageNode) :
    gcScan m l =
      (l.filter (fun n => decide (m ≤ n.deleted_epoch)),
       (l.filter (fun n => decide (n.deleted_epoch < m))).map GarbageNode.garbage_p) := by
  induction l with
  | nil => rfl
  | cons n rest ih =>
    simp only [gcScan, ih, List.filter_cons]
    by_cases h : n.deleted_epoch < m
    · simp [h, Nat.not_le.mpr h]
    · simp [h, Nat.le_of_not_lt (by exact h)]

theorem minStep_cases (m x : Nat) : minStep m x = m ∨ minStep m x = x := by
  unfold minStep; split <;> simp

theorem minStep_le_left (m x : Nat) : minStep m x ≤ m := by
  unfold minStep; split <;> omega

theorem minStep_le_right (m x : Nat) : minStep m x ≤ x := by
  unfold minStep; split <;> omega

theorem foldl_min_le_init (c : Nat) (l : List Nat) : l.foldl minStep c ≤ c := by
  induction l generalizing c with
  | nil => simp
  | cons x rest ih =>
    simpa using le_trans (ih (minStep c x)) (minStep_le_left c x)

theorem foldl_min_le_mem (c x : Nat) (l : List Nat) (hx : x ∈ l) :
    l.foldl minStep c ≤ x := by
  induction l generalizing c with
  | nil => cases hx
  | cons y rest ih =>
    rcases List.mem_cons.mp hx with h | h
    · subst h
      simp only [List.foldl_cons]
      exact le_trans (foldl_min_le_init _ _) (minStep_le_right c x)
    · exact ih (minStep c y) h

theorem foldl_min_mem (c : Nat) (l : List Nat) :
    l.foldl minStep c = c ∨ l.foldl minStep c ∈ l := by
  induction l generalizing c with
  | nil => simp
  | cons y rest ih =>
    simp only [List.foldl_cons]
    rcases minStep_cases c y with he | he <;> rw [he]
    · rcases ih c with h | h
      · left; exact h
      · right; exact List.mem_cons_of_mem _ h
    · rcases ih y with h | h
      · right; rw [h]; exact List.mem_cons_self y rest
      · right; exact List.mem_cons_of_mem _ h

end LW

/-- C3: the spec says a pop on an empty stack reports absence (returns
null) and never crashes.  The source `Pop` (src/AtomicStack.h lines 85-101)
loads `old_p = head_p.load()` and immediately evaluates `old_p->next_p`
without any null check, so on an empty stack it dereferences a null
pointer; `none` is that null dereference, not a reported absence.  The
repository's own tests (test/basic_test.cpp, test/em_test.cpp) call a
Pop that reports absence (`bool ret = as.Pop(top)` / `as.Pop() == nullptr`),
so the header contradicts its tests. -/
theorem c3_pop_empty_null_deref : AtomicStack.pop ([] : List Nat) = none := rfl

/-- C4: in a single-threaded run, `Push(v)` immediately followed by `Pop`
yields exactly `v` and restores the previous stack, and 100 pushes of
`0..99` followed by 100 pops yield `99` down to `0` in LIFO order. -/
theorem c4_stack_lifo :
    (∀ (s : List Nat) (v : Nat),
      AtomicStack.pop (AtomicStack.push s v) = some (v, s)) ∧
    (AtomicStack.popN 100 (AtomicStack.pushAll [] (List.range 100))).1 =
      (List.range 100).reverse ∧
    (AtomicStack.popN 100 (AtomicStack.pushAll [] (List.range 100))).2 = [] := by
  refine ⟨fun s v => rfl, ?_, ?_⟩ <;> decide

namespace LW

/-- `doGC` never touches the per-core slots or the epoch counter. -/
theorem doGC_fst_per_core_epoch (s : State) :
    (doGC s).1.per_core = s.per_core ∧ (doGC s).1.epoch = s.epoch := by
  cases hg : s.garbage <;> simp [doGC, hg]

/-- Whether an operation is `AddGarbageNode`. -/
def Op.isAdd : Op → Bool
  | .add _ => true
  | _ => false

/-- Once a payload `p` sits in the head node of the garbage list and
nowhere else, any sequence of announce / epoch-advance / `DoGC` operations
keeps it exactly there and never frees it (the collector never unlinks the
head node). -/
theorem run_keeps_head_retired (p : Nat) (ops : List Op) (s : State)
    (hops : ∀ op ∈ ops, op.isAdd = false)
    (hs : ∃ e rest, s.garbage = ⟨e, p⟩ :: rest ∧
        p ∉ rest.map GarbageNode.garbage_p) :
    (∃ e rest, (run s ops).1.garbage = ⟨e, p⟩ :: rest ∧
        p ∉ rest.map GarbageNode.garbage_p) ∧
    (run s ops).2.count p = 0 := by
  induction ops generalizing s with
  | nil => simpa [run] using hs
  | cons op rest ih =>
    obtain ⟨e, r, hg, hpr⟩ := hs
    have hoprest : ∀ o ∈ rest, o.isAdd = false :=
      fun o ho => hops o (List.mem_cons_of_mem _ ho)
    cases op with
    | announce i =>
      have h2 := ih (announceEnter s i) hoprest ⟨e, r, hg, hpr⟩
      simpa [run, step] using h2
    | add q =>
      have := hops (Op.add q) (List.mem_cons_self _ _)
      simp [Op.isAdd] at this
    | nextEpoch =>
      have h2 := ih (gotoNextEpoch s) hoprest ⟨e, r, hg, hpr⟩
      simpa [run, step] using h2
    | gc =>
      have hscan := gcScan_eq_filter (minEpoch s) r
      have hkeptdef :
          ∃ kept, kept = r.filter (fun n => decide (minEpoch s ≤ n.deleted_epoch)) :=
        ⟨_, rfl⟩
      obtain ⟨kept, hk⟩ := hkeptdef
      have hfreeddef :
          ∃ freed, freed = (r.filter
            (fun n => decide (n.deleted_epoch < minEpoch s))).map
              GarbageNode.garbage_p :=
        ⟨_, rfl⟩
      obtain ⟨freed, hf⟩ := hfreeddef
      have hdo : doGC s = ({ s with garbage := ⟨e, p⟩ :: kept }, freed) := by
        rw [hk, hf]
        simp [doGC, hg, hscan]
      have hkept : p ∉ kept.map GarbageNode.garbage_p := by
        intro hmem
        obtain ⟨n, hn, hnp⟩ := List.mem_map.mp hmem
        rw [hk] at hn
        exact hpr (List.mem_map.mpr ⟨n, List.mem_of_mem_filter hn, hnp⟩)
      have hfreed : p ∉ freed := by
        intro hmem
        rw [hf] at hmem
        obtain ⟨n, hn, hnp⟩ := List.mem_map.mp hmem
        exact hpr (List.mem_map.mpr ⟨n, List.mem_of_mem_filter hn, hnp⟩)
      have h2 := ih ({ s with garbage := ⟨e, p⟩ :: kept }) hoprest ⟨e, kept, rfl, hkept⟩
      simp only [run, step, hdo]
      refine ⟨h2.1, ?_⟩
      rw [List.count_append, h2.2, List.count_eq_zero.mpr hfreed]

end LW

/-- C2: one `DoGC` pass computes `min_epoch` as the minimum over all
`core_num` per-core slots, never unlinks or frees the head node of the
retired list, and for every successor entry frees the payload and unlinks
the entry if and only if its `deleted_epoch` is strictly below `min_epoch`,
keeping all other entries in place in order; the per-core slots and the
epoch counter are untouched. -/
theorem c2_doGC_pass (s : LW.State) (h : LW.GarbageNode) (t : List LW.GarbageNode)
    (hg : s.garbage = h :: t) (hc : s.per_core ≠ []) :
    (LW.doGC s).1.per_core = s.per_core ∧
    (LW.doGC s).1.epoch = s.epoch ∧
    (LW.doGC s).1.garbage =
      h :: t.filter (fun n => decide (LW.minEpoch s ≤ n.deleted_epoch)) ∧
    (LW.doGC s).2 =
      (t.filter (fun n => decide (n.deleted_epoch < LW.minEpoch s))).map
        LW.GarbageNode.garbage_p ∧
    (∀ x ∈ s.per_core, LW.minEpoch s ≤ x) ∧ LW.minEpoch s ∈ s.per_core := by
  have hscan := LW.gcScan_eq_filter (LW.minEpoch s) t
  refine ⟨?_, ?_, ?_, ?_, ?_, ?_⟩
  · simp [LW.doGC, hg, hscan]
  · simp [LW.doGC, hg, hscan]
  · simp [LW.doGC, hg, hscan]
  · simp [LW.doGC, hg, hscan]
  · intro x hx
    cases hl : s.per_core with
    | nil => rw [hl] at hx; cases hx
    | cons c rest =>
      rw [hl] at hx
      simp only [LW.minEpoch, hl]
      rcases List.mem_cons.mp hx with h1 | h1
      · subst h1; exact LW.foldl_min_le_init _ _
      · exact LW.foldl_min_le_mem _ _ _ h1
  · cases hl : s.per_core with
    | nil => exact absurd hl hc
    | cons c rest =>
      simp only [LW.minEpoch, hl]
      rcases LW.foldl_min_mem c rest with h1 | h1
      · rw [h1]; exact List.mem_cons_self _ _
      · exact List.mem_cons_of_mem _ h1

/-- Witness for C2 at a concrete state: slots `[2, 3]`, epoch 5, garbage
list `(4,10), (1,11), (3,12)` — min epoch is 2, the head `(4,10)` stays,
`(1,11)` is freed (epoch 1 < 2), `(3,12)` is kept. -/
theorem c2_doGC_pass_witness :
    (LW.doGC ⟨[2, 3], 5, [⟨4, 10⟩, ⟨1, 11⟩, ⟨3, 12⟩]⟩).2 = [11] ∧
    (LW.doGC ⟨[2, 3], 5, [⟨4, 10⟩, ⟨1, 11⟩, ⟨3, 12⟩]⟩).1.garbage =
      [⟨4, 10⟩, ⟨3, 12⟩] := by
  have h := c2_doGC_pass ⟨[2, 3], 5, [⟨4, 10⟩, ⟨1, 11⟩, ⟨3, 12⟩]⟩
    ⟨4, 10⟩ [⟨1, 11⟩, ⟨3, 12⟩] rfl (by decide)
  refine ⟨?_, ?_⟩
  · rw [h.2.2.2.1]; decide
  · rw [h.2.2.1]; decide

namespace LW

/-- Every operation preserves "all per-core slots are at most the epoch
counter" and the number of slots. -/
theorem step_slots_le (s : State) (op : Op) (h : ∀ x ∈ s.per_core, x ≤ s.epoch) :
    (∀ x ∈ (step s op).1.per_core, x ≤ (step s op).1.epoch) ∧
    (step s op).1.per_core.length = s.per_core.length := by
  cases op with
  | announce i =>
    refine ⟨?_, by simp [step, announceEnter]⟩
    intro x hx
    simp only [step, announceEnter] at hx ⊢
    rcases List.mem_or_eq_of_mem_set hx with h1 | h1
    · exact h x h1
    · omega
  | add p =>
    exact ⟨fun x hx => h x (by simpa [step, addGarbageNode] using hx),
           by simp [step, addGarbageNode]⟩
  | nextEpoch =>
    refine ⟨?_, by simp [step, gotoNextEpoch]⟩
    intro x hx
    simp only [step, gotoNextEpoch] at hx ⊢
    exact le_trans (h x hx) (Nat.le_succ _)
  | gc =>
    obtain ⟨hpc, hep⟩ := doGC_fst_per_core_epoch s
    simp only [step, hpc, hep]
    exact ⟨h, trivial⟩

/-- The slot bound and the slot count are invariants of whole runs. -/
theorem run_slots_le (s : State) (ops : List Op) (h : ∀ x ∈ s.per_core, x ≤ s.epoch) :
    (∀ x ∈ (run s ops).1.per_core, x ≤ (run s ops).1.epoch) ∧
    (run s ops).1.per_core.length = s.per_core.length := by
  induction ops generalizing s with
  | nil => exact ⟨h, rfl⟩
  | cons op rest ih =>
    obtain ⟨h1, h2⟩ := step_slots_le s op h
    obtain ⟨h3, h4⟩ := ih (step s op).1 h1
    constructor
    · intro x hx
      exact h3 x (by simpa [run] using hx)
    · simp only [run]
      rw [← h2]
      simpa using h4

end LW

/-- C10: in `LocalWriteEM`, for every state reachable from the constructed
initial state by any sequence of public operations, every per-core slot is
at most the global epoch counter, and therefore the `min_epoch` computed by
`DoGC` never exceeds the current global epoch. -/
theorem c10_slots_le_epoch (core_num : Nat) (ops : List LW.Op) (i : Nat)
    (hi : i < core_num) :
    (LW.run (LW.init core_num) ops).1.per_core.getD i 0 ≤
      (LW.run (LW.init core_num) ops).1.epoch ∧
    LW.minEpoch (LW.run (LW.init core_num) ops).1 ≤
      (LW.run (LW.init core_num) ops).1.epoch := by
  have hinit : ∀ x ∈ (LW.init core_num).per_core, x ≤ (LW.init core_num).epoch := by
    intro x hx
    simp only [LW.init] at hx ⊢
    rw [List.eq_of_mem_replicate hx]
  obtain ⟨hle, hlen⟩ := LW.run_slots_le (LW.init core_num) ops hinit
  have hlen2 : (LW.run (LW.init core_num) ops).1.per_core.length = core_num := by
    rw [hlen]; simp [LW.init]
  have hi2 : i < (LW.run (LW.init core_num) ops).1.per_core.length := by omega
  constructor
  · refine hle _ ?_
    rw [List.getD_eq_getElem _ _ hi2]
    exact List.getElem_mem hi2
  · cases hl : (LW.run (LW.init core_num) ops).1.per_core with
    | nil => rw [hl] at hlen2; simp at hlen2; omega
    | cons c rest =>
      simp only [LW.minEpoch, hl]
      have hc : c ≤ (LW.run (LW.init core_num) ops).1.epoch :=
        hle c (by rw [hl]; exact List.mem_cons_self _ _)
      exact le_trans (LW.foldl_min_le_init _ _) hc

/-- Witness for C10: two cores, a tick, an announce on core 0 and a `DoGC`
pass; slot 0 holds 1 and the epoch counter is 1. -/
theorem c10_slots_le_epoch_witness :
    (LW.run (LW.init 2) [LW.Op.nextEpoch, LW.Op.announce 0, LW.Op.gc]).1.per_core.getD 0 0 ≤
      (LW.run (LW.init 2) [LW.Op.nextEpoch, LW.Op.announce 0, LW.Op.gc]).1.epoch ∧
    LW.minEpoch (LW.run (LW.init 2) [LW.Op.nextEpoch, LW.Op.announce 0, LW.Op.gc]).1 ≤
      (LW.run (LW.init 2) [LW.Op.nextEpoch, LW.Op.announce 0, LW.Op.gc]).1.epoch :=
  c10_slots_le_epoch 2 [LW.Op.nextEpoch, LW.Op.announce 0, LW.Op.gc] 0 (by decide)

/-- C1: retire a single payload `p` through `AddGarbageNode`; then, for any
interleaving of collector ticks (`GotoNextEpoch` + `DoGC`) and worker
announcements that advances the global epoch past the retirement epoch and
re-announces a later epoch in every per-core slot, the manager calls
`FreeGarbageNode` on `p` exactly once — here at destruction
(`FreeAllGarbage`), because `DoGC` never unlinks the head node of the
retired list and `p`, being the only retirement, stays in the head node —
and never twice. -/
theorem c1_retire_freed_exactly_once (s0 : LW.State) (p : Nat) (ops : List LW.Op)
    (hp : p ∉ s0.garbage.map LW.GarbageNode.garbage_p)
    (hops : ∀ op ∈ ops, op.isAdd = false)
    (hepoch : s0.epoch < (LW.run (LW.addGarbageNode s0 p) ops).1.epoch)
    (hslots : ∀ x ∈ (LW.run (LW.addGarbageNode s0 p) ops).1.per_core, s0.epoch < x) :
    ((LW.run (LW.addGarbageNode s0 p) ops).2 ++
        (LW.freeAllGarbage (LW.run (LW.addGarbageNode s0 p) ops).1).2).count p = 1 := by
  have h := LW.run_keeps_head_retired p ops (LW.addGarbageNode s0 p) hops
    ⟨s0.epoch, s0.garbage, rfl, hp⟩
  obtain ⟨⟨e, rest, hg, hpr⟩, hcount⟩ := h
  rw [List.count_append, hcount, Nat.zero_add]
  simp only [LW.freeAllGarbage, hg, List.map_cons]
  rw [List.count_cons_self, List.count_eq_zero.mpr hpr]

/-- Witness for C1: one core; retire payload 7 at epoch 0; tick, announce,
tick, collect; destruction then frees payload 7 exactly once. -/
theorem c1_retire_freed_exactly_once_witness :
    ((LW.run (LW.addGarbageNode (LW.init 1) 7)
        [LW.Op.nextEpoch, LW.Op.announce 0, LW.Op.nextEpoch, LW.Op.gc]).2 ++
      (LW.freeAllGarbage (LW.run (LW.addGarbageNode (LW.init 1) 7)
        [LW.Op.nextEpoch, LW.Op.announce 0, LW.Op.nextEpoch, LW.Op.gc]).1).2).count 7 = 1 :=
  c1_retire_freed_exactly_once (LW.init 1) 7
    [LW.Op.nextEpoch, LW.Op.announce 0, LW.Op.nextEpoch, LW.Op.gc]
    (by decide) (by decide) (by decide) (by decide)


namespace GEM

/-- One epoch node of the global-write `EpochManager`
(src/GlobalWriteEM.h, class `EpochNode`): its `active_thread_count` and its
garbage list (payload identifiers, from `garbage_list_p`).  `next_p` is the
list structure itself: the epoch list runs from `head_epoch_p` (list head)
to `current_epoch_p` (list tail, the epoch the manager is currently in). -/
structure EpochNode where
  active_thread_count : Int
  garbage : List Nat
  deriving Repr, DecidableEq

/-- `EpochManager::ClearEpoch()` (src/GlobalWriteEM.h lines 549-632) while
the manager is running (so `current_epoch_p` is the tail of the list and
reaching it stops the loop).

Each loop iteration on a head node that is not the current epoch:
load `active_thread_count`; stop when it is non-zero.  Otherwise
`fetch_sub(MAX_THREAD_COUNT)`; the value it returns is the loaded count
plus the joins that arrived between the load and the `fetch_sub`, which the
model takes from `deltas` (one entry consumed per iteration that reaches
the `fetch_sub`).  When that previous value is positive, a thread snuck in:
add `MAX_THREAD_COUNT` back (leaving the counter at that previous value)
and stop.  Otherwise the counter is now the large negative sentinel
(`previous - MAX_THREAD_COUNT`); free the node's whole garbage list, free
the node and advance `head_epoch_p`.

Returns the remaining epoch list and the payloads freed, in order. -/
def clearEpoch : List EpochNode → List Int → List EpochNode × List Nat
  | [], _ => ([], [])
  | [e], _ => ([e], [])
  | e :: f :: rest, deltas =>
    if e.active_thread_count ≠ 0 then (e :: f :: rest, [])
    else
      let prev := e.active_thread_count + deltas.headD 0
      if 0 < prev then ({ e with active_thread_count := prev } :: f :: rest, [])
      else
        let (es, fr) := clearEpoch (f :: rest) deltas.tail
        (es, e.garbage ++ fr)

theorem getD_tail_int (l : List Int) (j : Nat) :
    l.tail.getD j 0 = l.getD (j + 1) 0 := by
  cases l <;> simp [List.getD]

end GEM

/-- C5: the running-mode `ClearEpoch` sweep iterates while `head_epoch_p`
differs from `current_epoch_p`; it frees a head epoch node together with
its entire garbage list and advances the head only when its
`active_thread_count` was moved from 0 to the negative sentinel (loaded
count 0 and no joiner arrived before the `fetch_sub`); as soon as it
observes a non-zero counter, or the `fetch_sub` reveals a concurrent
joiner, it stops without error and without freeing anything from that
epoch; the freed payloads are exactly the garbage of the removed prefix of
epochs, and the node pointed to by `current_epoch_p` (the list tail)
always survives. -/
theorem c5_clearEpoch_sweep (epochs : List GEM.EpochNode) (deltas : List Int)
    (hne : epochs ≠ []) (hd : ∀ d ∈ deltas, 0 ≤ d) :
    ∃ k : Nat, k < epochs.length ∧
      (GEM.clearEpoch epochs deltas).1.length = epochs.length - k ∧
      (GEM.clearEpoch epochs deltas).1.map GEM.EpochNode.garbage =
        (epochs.drop k).map GEM.EpochNode.garbage ∧
      (GEM.clearEpoch epochs deltas).2 =
        ((epochs.take k).map GEM.EpochNode.garbage).flatten ∧
      (∀ j, j < k → (epochs.getD j ⟨0, []⟩).active_thread_count = 0 ∧
        deltas.getD j 0 = 0) := by
  induction epochs generalizing deltas hd with
  | nil => exact absurd rfl hne
  | cons e tl ih =>
    cases tl with
    | nil =>
      exact ⟨0, by simp [GEM.clearEpoch]⟩
    | cons f rest =>
      by_cases h0 : e.active_thread_count ≠ 0
      · refine ⟨0, by simp, ?_, ?_, ?_, ?_⟩ <;>
          simp [GEM.clearEpoch, h0]
      · push_neg at h0
        have hhead0 : 0 ≤ deltas.headD 0 := by
          cases deltas with
          | nil => simp
          | cons d ds => exact hd d (List.mem_cons_self _ _)
        have hconv : deltas.headD 0 = deltas.head?.getD 0 := by
          cases deltas <;> rfl
        by_cases hprev : 0 < e.active_thread_count + deltas.headD 0
        · have hprev2 : 0 < deltas.head?.getD 0 := by omega
          refine ⟨0, by simp, ?_, ?_, ?_, ?_⟩ <;>
            simp [GEM.clearEpoch, h0, hprev2]
        · have hprev2 : ¬ 0 < deltas.head?.getD 0 := by omega
          have hdtl : ∀ d ∈ deltas.tail, (0 : Int) ≤ d := fun d hdm =>
            hd d (List.mem_of_mem_tail hdm)
          obtain ⟨k, hk, hlen, hmap, hfree, hzero⟩ :=
            ih deltas.tail (List.cons_ne_nil f rest) hdtl
          have hred : GEM.clearEpoch (e :: f :: rest) deltas =
              ((GEM.clearEpoch (f :: rest) deltas.tail).1,
               e.garbage ++ (GEM.clearEpoch (f :: rest) deltas.tail).2) := by
            simp [GEM.clearEpoch, h0, hprev2]
          refine ⟨k + 1, by simpa using Nat.succ_lt_succ hk, ?_, ?_, ?_, ?_⟩
          · rw [hred]
            simpa using hlen
          · rw [hred]
            simpa using hmap
          · rw [hred, hfree]
            simp
          · intro j hj
            cases j with
            | zero =>
              refine ⟨by simpa using h0, ?_⟩
              have : deltas.headD 0 = deltas.getD 0 0 := by
                cases deltas <;> rfl
              omega
            | succ j2 =>
              have hj2 : j2 < k := by omega
              obtain ⟨hz1, hz2⟩ := hzero j2 hj2
              refine ⟨by simpa using hz1, ?_⟩
              rw [← GEM.getD_tail_int]
              exact hz2

/-- Witness for C5: three epochs (head count 0 with garbage `[1, 2]`,
middle count 3 with garbage `[4]`, current epoch), no concurrent joiners;
the sweep frees `[1, 2]`, then stops at the non-zero counter. -/
theorem c5_clearEpoch_sweep_witness :
    ∃ k : Nat, k < ([⟨0, [1, 2]⟩, ⟨3, [4]⟩, ⟨0, []⟩] : List GEM.EpochNode).length ∧
      (GEM.clearEpoch [⟨0, [1, 2]⟩, ⟨3, [4]⟩, ⟨0, []⟩] []).1.length =
        ([⟨0, [1, 2]⟩, ⟨3, [4]⟩, ⟨0, []⟩] : List GEM.EpochNode).length - k ∧
      (GEM.clearEpoch [⟨0, [1, 2]⟩, ⟨3, [4]⟩, ⟨0, []⟩] []).1.map GEM.EpochNode.garbage =
        (([⟨0, [1, 2]⟩, ⟨3, [4]⟩, ⟨0, []⟩] : List GEM.EpochNode).drop k).map
          GEM.EpochNode.garbage ∧
      (GEM.clearEpoch [⟨0, [1, 2]⟩, ⟨3, [4]⟩, ⟨0, []⟩] []).2 =
        ((([⟨0, [1, 2]⟩, ⟨3, [4]⟩, ⟨0, []⟩] : List GEM.EpochNode).take k).map
          GEM.EpochNode.garbage).flatten ∧
      (∀ j, j < k →
        (([⟨0, [1, 2]⟩, ⟨3, [4]⟩, ⟨0, []⟩] : List GEM.EpochNode).getD j
          ⟨0, []⟩).active_thread_count = 0 ∧
        ([] : List Int).getD j 0 = 0) :=
  c5_clearEpoch_sweep [⟨0, [1, 2]⟩, ⟨3, [4]⟩, ⟨0, []⟩] [] (by decide) (by simp)

namespace VLP

/-- `VarLenPool::ChunkHeader` (src/VarLenPool.h lines 21-33): the pair
`(ref_count, offset)` packed into one double-word CAS unit. -/
structure ChunkHeader where
  ref_count : Nat
  offset : Nat
  deriving Repr, DecidableEq, Inhabited

/-- `VarLenPool::Chunk` (src/VarLenPool.h lines 54-138).  `base` is the
address of the `data` array (`data = new char[sz]`), `cap` its size, so
`end_data = base + cap`.  Addresses are natural numbers. -/
structure Chunk where
  base : Nat
  cap : Nat
  header : ChunkHeader
  delete_epoch : Nat
  deriving Repr, DecidableEq, Inhabited

/-- `static_cast<uint64_t>(-1)`, the `delete_epoch` set by the `Chunk`
constructor (line 89). -/
def UINT64_MAX : Nat := 2 ^ 64 - 1

/-- The `Chunk(sz)` constructor (lines 75-92): fresh data array, ref count
0, offset 0, `delete_epoch` = `(uint64_t)-1`. -/
def Chunk.mkNew (base cap : Nat) : Chunk :=
  { base := base, cap := cap, header := ⟨0, 0⟩, delete_epoch := UINT64_MAX }

/-- `VarLenPool::Chunk::Allocate(sz)` (lines 101-137), sequentially (the
CAS succeeds on the first try).  `next_base` in the source is declared
`char *` and, per the adjacent comment, is the base address of the next
allocation, i.e. `data + offset + sz + 8` (the source line elides the
`data +`, which the declared pointer type requires); the chunk is full when
it exceeds `end_data`.  On success the header becomes
`(ref_count + 1, offset + sz + 8)`, the owning-chunk back-pointer cell
(`mem_p->chunk_p = this`) is the 8 bytes at `data + old offset`, and the
returned user pointer is `mem_p->data`, 8 bytes past it.  Returns
`(updated chunk, back-pointer cell address, user pointer)`. -/
def Chunk.allocate (c : Chunk) (sz : Nat) : Option (Chunk × Nat × Nat) :=
  if c.base + c.header.offset + sz + 8 > c.base + c.cap then none
  else some
    ({ c with header := ⟨c.header.ref_count + 1, c.header.offset + sz + 8⟩ },
     c.base + c.header.offset,
     c.base + c.header.offset + 8)

/-- State of a `VarLenPool` (lines 255-276).  `chunks` is the chunk chain
newest-first: the list head is `appending_tail_p`, the list tail is
`scanning_head_p`.  `mem` holds the back-pointer cells written by
`Chunk::Allocate` (address of a `Mem` header, to the owning chunk's data
address).  `next_base` models where `new char[sz]` places the next chunk's
data array: fresh chunks live above every existing one. -/
structure Pool where
  chunk_size : Nat
  chunks : List Chunk
  mem : Nat → Option Nat
  next_base : Nat

/-- The `VarLenPool(p_chunk_size)` constructor (lines 255-265): one
standard-size chunk, which is both scanning head and appending tail. -/
def mkPool (chunk_size base0 : Nat) : Pool :=
  { chunk_size := chunk_size,
    chunks := [Chunk.mkNew base0 chunk_size],
    mem := fun _ => none,
    next_base := base0 + chunk_size }

/-- One `chunk_p->Allocate(sz)` attempt on the appending tail, together
with the back-pointer store it performs on success. -/
def tailAlloc (pl : Pool) (sz : Nat) : Option (Pool × Nat × Nat) :=
  match pl.chunks with
  | [] => none
  | c :: rest =>
    match c.allocate sz with
    | none => none
    | some (c2, slot, ptr) =>
      some ({ pl with chunks := c2 :: rest,
                      mem := fun a => if a = slot then some c.base else pl.mem a },
            ptr, c.base)

/-- `VarLenPool::AllocateChunk(sz)` (lines 153-182): size the new chunk
(`sz + sizeof(Mem)` when oversized, else `chunk_size`), `new Chunk{sz}`,
then CAS it onto `appending_tail_p->next_p`.  `cas_failed` is the CAS
outcome (another thread extended the chain first); on failure the chunk is
deleted and `nullptr` returned, on success `appending_tail_p` moves to the
new chunk and its pointer (its data address here) is returned. -/
def allocateChunk (pl : Pool) (sz : Nat) (cas_failed : Bool) :
    Pool × Option Nat :=
  let s2 := if sz > pl.chunk_size then sz + 8 else pl.chunk_size
  if cas_failed then (pl, none)
  else
    ({ pl with chunks := Chunk.mkNew pl.next_base s2 :: pl.chunks,
               next_base := pl.next_base + s2 },
     some pl.next_base)

/-- Outcome of `VarLenPool::Allocate`: success carries the new pool state,
the user pointer and (for the specification) the data address of the chunk
the pointer was carved from; `nullDeref` is the dereference of a null
`chunk_p`; `outOfFuel` means the modelled loop ran out of iterations. -/
inductive AllocResult where
  | ok (pl : Pool) (ptr : Nat) (src : Nat)
  | nullDeref
  | outOfFuel
  deriving Inhabited

/-- The `while(1)` loop of `VarLenPool::Allocate` (lines 196-211).  `cp`
says whether the local `chunk_p` is a valid pointer (when valid it is the
appending tail).  Each iteration runs `chunk_p->Allocate(sz)`; on failure
it calls `AllocateChunk` (consuming one CAS-outcome from `oracle`) and
continues with its result as the new `chunk_p`.  The source's line 204
(`Chunk *chunk_p = appending_tail_p->load();`) declares a new shadowed
local, so after a failed `AllocateChunk` the loop really does continue
with the outer `chunk_p == nullptr` and the next `chunk_p->Allocate`
dereferences null. -/
def allocLoop : Nat → Pool → Nat → Bool → List Bool → AllocResult
  | 0, _, _, _, _ => .outOfFuel
  | _ + 1, _, _, false, _ => .nullDeref
  | fuel + 1, pl, sz, true, oracle =>
    match tailAlloc pl sz with
    | some (pl2, ptr, src) => .ok pl2 ptr src
    | none =>
      allocLoop fuel (allocateChunk pl sz (oracle.headD false)).1 sz
        (allocateChunk pl sz (oracle.headD false)).2.isSome oracle.tail

/-- `VarLenPool::Allocate(sz)` (lines 191-215): round the size up to the
8-byte boundary, load the appending tail (valid, hence `true`) and run the
allocation loop. -/
def allocate (fuel : Nat) (pl : Pool) (sz : Nat) (oracle : List Bool) :
    AllocResult :=
  allocLoop fuel pl ((sz + 7) / 8 * 8) true oracle

/-- `VarLenPool::Free(p)` (lines 224-250): read the owning chunk from the
`Mem` header at `p - 8`, then CAS-loop the header to
`(ref_count - 1, offset)`.  The `delete_epoch` refresh is absent from the
source (the TODO comment at lines 242-243), so no chunk field other than
`ref_count` changes.  `none` models a pointer that never came from the
pool (garbage `chunk_p` in the real code). -/
def free (pl : Pool) (p : Nat) : Option Pool :=
  match pl.mem (p - 8) with
  | none => none
  | some b =>
    some { pl with chunks := pl.chunks.map (fun c =>
      if c.base = b then
        { c with header := ⟨c.header.ref_count - 1, c.header.offset⟩ }
      else c) }

/-- One `Allocate` request: the loop fuel, the requested size and the
CAS-outcome schedule for `AllocateChunk` calls. -/
structure AllocReq where
  fuel : Nat
  sz : Nat
  oracle : List Bool
  deriving Repr, DecidableEq

/-- Run a sequence of `Allocate` requests; collect
`(user pointer, carving chunk's data address)` for every success. -/
def runAllocs : Pool → List AllocReq → Pool × List (Nat × Nat)
  | pl, [] => (pl, [])
  | pl, r :: rs =>
    match allocate r.fuel pl r.sz r.oracle with
    | .ok pl2 ptr src =>
      ((runAllocs pl2 rs).1, (ptr, src) :: (runAllocs pl2 rs).2)
    | _ => runAllocs pl rs

end VLP

/-- C6: `Chunk::Allocate` returns the full result (null) if and only if
the current offset plus the total requested size (payload plus the 8-byte
`Mem` header) exceeds the chunk's capacity; otherwise the successful CAS
installs `(ref_count + 1, offset + sz + 8)`, the reserved byte range is
`[data + old offset, data + new offset)` (which stays inside the chunk),
the owning-chunk back-pointer cell is at its start and the returned user
pointer is 8 bytes past that cell; the pool-level attempt records the
back-pointer in memory. -/
theorem c6_chunk_allocate (c : VLP.Chunk) (sz : Nat) :
    (VLP.Chunk.allocate c sz = none ↔ c.cap < c.header.offset + (sz + 8)) ∧
    (∀ c2 slot ptr, VLP.Chunk.allocate c sz = some (c2, slot, ptr) →
      c2.base = c.base ∧ c2.cap = c.cap ∧ c2.delete_epoch = c.delete_epoch ∧
      c2.header.ref_count = c.header.ref_count + 1 ∧
      c2.header.offset = c.header.offset + (sz + 8) ∧
      slot = c.base + c.header.offset ∧ ptr = slot + 8 ∧
      c.base + c2.header.offset ≤ c.base + c.cap) ∧
    (∀ (pl : VLP.Pool) rest pl2 ptr src, pl.chunks = c :: rest →
      VLP.tailAlloc pl sz = some (pl2, ptr, src) →
      src = c.base ∧ ptr = c.base + c.header.offset + 8 ∧
      pl2.mem (c.base + c.header.offset) = some c.base) := by
  have hsome : ∀ c2 slot ptr, VLP.Chunk.allocate c sz = some (c2, slot, ptr) →
      c2 = { c with header := ⟨c.header.ref_count + 1,
               c.header.offset + (sz + 8)⟩ } ∧
      slot = c.base + c.header.offset ∧
      ptr = c.base + c.header.offset + 8 ∧
      c.header.offset + (sz + 8) ≤ c.cap := by
    intro c2 slot ptr h
    unfold VLP.Chunk.allocate at h
    by_cases hc : c.base + c.header.offset + sz + 8 > c.base + c.cap
    · simp [hc] at h
    · rw [if_neg hc] at h
      simp only [Option.some.injEq, Prod.mk.injEq] at h
      obtain ⟨h1, h2, h3⟩ := h
      refine ⟨?_, h2.symm, h3.symm, by omega⟩
      have hadd : c.header.offset + sz + 8 = c.header.offset + (sz + 8) := by
        omega
      rw [← h1, hadd]
  refine ⟨?_, ?_, ?_⟩
  · unfold VLP.Chunk.allocate
    by_cases hc : c.base + c.header.offset + sz + 8 > c.base + c.cap
    · simp [hc]; omega
    · simp [hc]; omega
  · intro c2 slot ptr h
    obtain ⟨h1, h2, h3, h4⟩ := hsome c2 slot ptr h
    subst h1 h2 h3
    refine ⟨rfl, rfl, rfl, rfl, rfl, rfl, rfl, ?_⟩
    show c.base + (c.header.offset + (sz + 8)) ≤ c.base + c.cap
    omega
  · intro pl rest pl2 ptr src hch ht
    have hred : VLP.tailAlloc pl sz =
        match VLP.Chunk.allocate c sz with
        | none => none
        | some (c2, slot, ptr) =>
          some ({ pl with chunks := c2 :: rest,
                          mem := fun a => if a = slot then some c.base else pl.mem a },
                ptr, c.base) := by
      unfold VLP.tailAlloc
      rw [hch]
    rw [hred] at ht
    cases hal : VLP.Chunk.allocate c sz with
    | none => rw [hal] at ht; simp at ht
    | some t =>
      obtain ⟨c2, slot, ptr2⟩ := t
      rw [hal] at ht
      simp only [Option.some.injEq, Prod.mk.injEq] at ht
      obtain ⟨hpl2, hptr, hsrc⟩ := ht
      obtain ⟨h1, h2, h3, h4⟩ := hsome c2 slot ptr2 hal
      refine ⟨hsrc.symm, by omega, ?_⟩
      rw [← hpl2]
      simp only
      rw [← h2]
      simp

/-- Witness for C6: a chunk at data address 100 with capacity 32 and a
fresh header; allocating 8 bytes gives header `(1, 16)`, back-pointer cell
100 and user pointer 108, and a nearly-full chunk (offset 28) is reported
full. -/
theorem c6_chunk_allocate_witness :
    VLP.Chunk.allocate ⟨100, 32, ⟨0, 28⟩, VLP.UINT64_MAX⟩ 8 = none ∧
    ((100 : Nat) = 100 ∧ (32 : Nat) = 32 ∧
      VLP.UINT64_MAX = VLP.UINT64_MAX ∧ (1 : Nat) = 1 ∧ (16 : Nat) = 16 ∧
      (100 : Nat) = 100 ∧ (108 : Nat) = 108 ∧ (116 : Nat) ≤ 132) :=
  ⟨(c6_chunk_allocate ⟨100, 32, ⟨0, 28⟩, VLP.UINT64_MAX⟩ 8).1.mpr (by decide),
   (c6_chunk_allocate ⟨100, 32, ⟨0, 0⟩, VLP.UINT64_MAX⟩ 8).2.1
     ⟨100, 32, ⟨1, 16⟩, VLP.UINT64_MAX⟩ 100 108 rfl⟩

/-- C8: the spec says that when the tail chunk is full and the CAS append
of a fresh chunk fails (another thread extended the chain), `Allocate`
reloads the tail pointer and retries, never proceeding with a null chunk
pointer.  In the source (src/VarLenPool.h line 204) the reload
`Chunk *chunk_p = appending_tail_p->load();` declares a new local that
shadows the outer `chunk_p`, so the retry continues with the outer
`chunk_p == nullptr` and the next loop iteration dereferences null: a full
tail chunk (capacity 16, offset 16) plus one failed `AllocateChunk` CAS
drives `Allocate` into the null dereference. -/
theorem c8_alloc_retry_null_deref :
    VLP.allocate 3
      ⟨16, [⟨0, 16, ⟨1, 16⟩, VLP.UINT64_MAX⟩], fun _ => none, 16⟩ 8 [true] =
      VLP.AllocResult.nullDeref := rfl

/-- C7 counterexample: the claim says that when `Free` takes a refcount
from 1 to 0 on a chunk that is no longer the append tail, it sets that
chunk's `delete_epoch` to the current epoch of the external EBR.  Take a
pool whose external EBR is at epoch 5: the append tail is the chunk at
data address 200 and the chunk at data address 100 holds one live
allocation (user pointer 108).  `Free(108)` takes the old chunk's refcount
from 1 to 0, yet its `delete_epoch` stays at the constructor value
`(uint64_t)-1` — the source never touches `delete_epoch` (TODO at
src/VarLenPool.h lines 242-243) — instead of becoming 5. -/
theorem c7_free_no_delete_epoch_update :
    ∃ pl2, VLP.free
        ⟨32, [⟨200, 32, ⟨0, 0⟩, VLP.UINT64_MAX⟩, ⟨100, 32, ⟨1, 16⟩, VLP.UINT64_MAX⟩],
         fun a => if a = 100 then some 100 else none, 232⟩ 108 = some pl2 ∧
      (pl2.chunks.getD 1 default).header.ref_count = 0 ∧
      (pl2.chunks.getD 1 default).base ≠ (pl2.chunks.getD 0 default).base ∧
      (pl2.chunks.getD 1 default).delete_epoch = VLP.UINT64_MAX ∧
      VLP.UINT64_MAX ≠ 5 := by
  refine ⟨_, rfl, rfl, by decide, rfl, by decide⟩

namespace VLP

theorem getD_map_chunk (l : List Chunk) (f : Chunk → Chunk) (i : Nat)
    (hi : i < l.length) :
    (l.map f).getD i default = f (l.getD i default) := by
  rw [List.getD_eq_getElem _ _ (by simpa using hi), List.getD_eq_getElem _ _ hi,
    List.getElem_map]

end VLP

/-- C7 (amended): for a pointer previously allocated from the pool
(so the back-pointer cell at `p - 8` names an owning chunk, and every
chunk with that data address holds at least one live allocation),
`VarLenPool::Free` decrements the owning chunk's refcount by exactly 1,
leaves its offset unchanged, and also leaves its `delete_epoch` unchanged
— the source does not set `delete_epoch` on the 1-to-0 transition (TODO at
src/VarLenPool.h lines 242-243); every other chunk and every other pool
field is untouched. -/
theorem c7_free_decrements (pl : VLP.Pool) (p b : Nat)
    (hb : pl.mem (p - 8) = some b)
    (href : ∀ c ∈ pl.chunks, c.base = b → 1 ≤ c.header.ref_count) :
    ∃ pl2, VLP.free pl p = some pl2 ∧
      pl2.mem = pl.mem ∧ pl2.chunk_size = pl.chunk_size ∧
      pl2.next_base = pl.next_base ∧
      pl2.chunks.length = pl.chunks.length ∧
      ∀ i, i < pl.chunks.length →
        (pl2.chunks.getD i default).base = (pl.chunks.getD i default).base ∧
        (pl2.chunks.getD i default).cap = (pl.chunks.getD i default).cap ∧
        (pl2.chunks.getD i default).header.offset =
          (pl.chunks.getD i default).header.offset ∧
        (pl2.chunks.getD i default).delete_epoch =
          (pl.chunks.getD i default).delete_epoch ∧
        ((pl.chunks.getD i default).base = b →
          (pl2.chunks.getD i default).header.ref_count + 1 =
            (pl.chunks.getD i default).header.ref_count) ∧
        ((pl.chunks.getD i default).base ≠ b →
          (pl2.chunks.getD i default).header.ref_count =
            (pl.chunks.getD i default).header.ref_count) := by
  unfold VLP.free
  rw [hb]
  refine ⟨_, rfl, rfl, rfl, rfl, by simp, ?_⟩
  intro i hi
  have hmap : (({ pl with chunks := pl.chunks.map (fun c =>
      if c.base = b then
        { c with header := ⟨c.header.ref_count - 1, c.header.offset⟩ }
      else c) } : VLP.Pool)).chunks.getD i default =
      (fun c => if c.base = b then
        { c with header := ⟨c.header.ref_count - 1, c.header.offset⟩ }
      else c) (pl.chunks.getD i default) :=
    VLP.getD_map_chunk pl.chunks _ i hi
  rw [hmap]
  have hmem : pl.chunks.getD i default ∈ pl.chunks := by
    rw [List.getD_eq_getElem _ _ hi]
    exact List.getElem_mem hi
  by_cases hcb : (pl.chunks.getD i default).base = b
  · have h1 := href _ hmem hcb
    beta_reduce
    rw [if_pos hcb]
    refine ⟨rfl, rfl, rfl, rfl, fun _ => ?_, fun hne => absurd hcb hne⟩
    show (pl.chunks.getD i default).header.ref_count - 1 + 1 =
      (pl.chunks.getD i default).header.ref_count
    omega
  · beta_reduce
    rw [if_neg hcb]
    exact ⟨rfl, rfl, rfl, rfl, fun hc => absurd hc hcb, fun _ => rfl⟩

/-- Witness for the amended C7: freeing user pointer 108 on a two-chunk
pool decrements the owning (non-tail) chunk's refcount from 1 to 0 and
changes nothing else. -/
theorem c7_free_decrements_witness :
    ∃ pl2, VLP.free
        (⟨32, [⟨200, 32, ⟨0, 0⟩, VLP.UINT64_MAX⟩, ⟨100, 32, ⟨1, 16⟩, VLP.UINT64_MAX⟩],
          fun a => if a = 100 then some 100 else none, 232⟩ : VLP.Pool) 108 = some pl2 ∧
      pl2.mem = (⟨32, [⟨200, 32, ⟨0, 0⟩, VLP.UINT64_MAX⟩, ⟨100, 32, ⟨1, 16⟩, VLP.UINT64_MAX⟩],
          fun a => if a = 100 then some 100 else none, 232⟩ : VLP.Pool).mem ∧
      pl2.chunk_size = (⟨32, [⟨200, 32, ⟨0, 0⟩, VLP.UINT64_MAX⟩, ⟨100, 32, ⟨1, 16⟩, VLP.UINT64_MAX⟩],
          fun a => if a = 100 then some 100 else none, 232⟩ : VLP.Pool).chunk_size ∧
      pl2.next_base = (⟨32, [⟨200, 32, ⟨0, 0⟩, VLP.UINT64_MAX⟩, ⟨100, 32, ⟨1, 16⟩, VLP.UINT64_MAX⟩],
          fun a => if a = 100 then some 100 else none, 232⟩ : VLP.Pool).next_base ∧
      pl2.chunks.length = (⟨32, [⟨200, 32, ⟨0, 0⟩, VLP.UINT64_MAX⟩, ⟨100, 32, ⟨1, 16⟩, VLP.UINT64_MAX⟩],
          fun a => if a = 100 then some 100 else none, 232⟩ : VLP.Pool).chunks.length ∧
      ∀ i, i < (⟨32, [⟨200, 32, ⟨0, 0⟩, VLP.UINT64_MAX⟩, ⟨100, 32, ⟨1, 16⟩, VLP.UINT64_MAX⟩],
          fun a => if a = 100 then some 100 else none, 232⟩ : VLP.Pool).chunks.length →
        (pl2.chunks.getD i default).base =
          (((⟨32, [⟨200, 32, ⟨0, 0⟩, VLP.UINT64_MAX⟩, ⟨100, 32, ⟨1, 16⟩, VLP.UINT64_MAX⟩],
            fun a => if a = 100 then some 100 else none, 232⟩ : VLP.Pool)).chunks.getD i default).base ∧
        (pl2.chunks.getD i default).cap =
          (((⟨32, [⟨200, 32, ⟨0, 0⟩, VLP.UINT64_MAX⟩, ⟨100, 32, ⟨1, 16⟩, VLP.UINT64_MAX⟩],
            fun a => if a = 100 then some 100 else none, 232⟩ : VLP.Pool)).chunks.getD i default).cap ∧
        (pl2.chunks.getD i default).header.offset =
          (((⟨32, [⟨200, 32, ⟨0, 0⟩, VLP.UINT64_MAX⟩, ⟨100, 32, ⟨1, 16⟩, VLP.UINT64_MAX⟩],
            fun a => if a = 100 then some 100 else none, 232⟩ : VLP.Pool)).chunks.getD i default).header.offset ∧
        (pl2.chunks.getD i default).delete_epoch =
          (((⟨32, [⟨200, 32, ⟨0, 0⟩, VLP.UINT64_MAX⟩, ⟨100, 32, ⟨1, 16⟩, VLP.UINT64_MAX⟩],
            fun a => if a = 100 then some 100 else none, 232⟩ : VLP.Pool)).chunks.getD i default).delete_epoch ∧
        ((((⟨32, [⟨200, 32, ⟨0, 0⟩, VLP.UINT64_MAX⟩, ⟨100, 32, ⟨1, 16⟩, VLP.UINT64_MAX⟩],
            fun a => if a = 100 then some 100 else none, 232⟩ : VLP.Pool)).chunks.getD i default).base = 100 →
          (pl2.chunks.getD i default).header.ref_count + 1 =
            (((⟨32, [⟨200, 32, ⟨0, 0⟩, VLP.UINT64_MAX⟩, ⟨100, 32, ⟨1, 16⟩, VLP.UINT64_MAX⟩],
              fun a => if a = 100 then some 100 else none, 232⟩ : VLP.Pool)).chunks.getD i default).header.ref_count) ∧
        ((((⟨32, [⟨200, 32, ⟨0, 0⟩, VLP.UINT64_MAX⟩, ⟨100, 32, ⟨1, 16⟩, VLP.UINT64_MAX⟩],
            fun a => if a = 100 then some 100 else none, 232⟩ : VLP.Pool)).chunks.getD i default).base ≠ 100 →
          (pl2.chunks.getD i default).header.ref_count =
            (((⟨32, [⟨200, 32, ⟨0, 0⟩, VLP.UINT64_MAX⟩, ⟨100, 32, ⟨1, 16⟩, VLP.UINT64_MAX⟩],
              fun a => if a = 100 then some 100 else none, 232⟩ : VLP.Pool)).chunks.getD i default).header.ref_count) :=
  c7_free_decrements
    (⟨32, [⟨200, 32, ⟨0, 0⟩, VLP.UINT64_MAX⟩, ⟨100, 32, ⟨1, 16⟩, VLP.UINT64_MAX⟩],
      fun a => if a = 100 then some 100 else none, 232⟩ : VLP.Pool) 108 100
    rfl (by decide)

namespace VLP

/-- The chunk chain (newest-first) occupies pairwise disjoint address
ranges below `hi`: each chunk's data range `[base, base + cap)` ends at or
below `hi`, its used part stays within its capacity, and every older chunk
lies entirely below its data address. -/
def chained : List Chunk → Nat → Prop
  | [], _ => True
  | c :: rest, hi => c.base + c.cap ≤ hi ∧ c.header.offset ≤ c.cap ∧
      chained rest c.base

theorem chained_mem {l : List Chunk} {hi : Nat} (h : chained l hi) :
    ∀ c ∈ l, c.base + c.cap ≤ hi ∧ c.header.offset ≤ c.cap := by
  induction l generalizing hi with
  | nil => intro c hc; cases hc
  | cons d rest ih =>
    intro c hc
    rcases List.mem_cons.mp hc with h1 | h1
    · subst h1; exact ⟨h.1, h.2.1⟩
    · have h2 := ih h.2.2 c h1
      exact ⟨le_trans h2.1 (le_trans (Nat.le_add_right _ _) h.1), h2.2⟩

/-- Every issued `(user pointer, owning data address)` pair still has its
back-pointer cell intact in pool memory, and the cell sits inside the used
part of a chunk currently in the chain. -/
def issuedOK (pl : Pool) (issued : List (Nat × Nat)) : Prop :=
  ∀ pr ∈ issued, pl.mem (pr.1 - 8) = some pr.2 ∧
    ∃ c ∈ pl.chunks, c.base = pr.2 ∧ c.base + 8 ≤ pr.1 ∧
      pr.1 ≤ c.base + c.header.offset

theorem issuedOK_of_mem_imp (pl : Pool) {l1 l2 : List (Nat × Nat)}
    (hsub : ∀ pr ∈ l1, pr ∈ l2) (h : issuedOK pl l2) : issuedOK pl l1 :=
  fun pr hpr => h pr (hsub pr hpr)

theorem allocate_some_facts (c : Chunk) (sz : Nat) (c2 : Chunk)
    (slot ptr : Nat) (h : Chunk.allocate c sz = some (c2, slot, ptr)) :
    c2 = { c with header := ⟨c.header.ref_count + 1,
             c.header.offset + (sz + 8)⟩ } ∧
    slot = c.base + c.header.offset ∧
    ptr = c.base + c.header.offset + 8 ∧
    c.header.offset + (sz + 8) ≤ c.cap := by
  unfold Chunk.allocate at h
  by_cases hc : c.base + c.header.offset + sz + 8 > c.base + c.cap
  · simp [hc] at h
  · rw [if_neg hc] at h
    simp only [Option.some.injEq, Prod.mk.injEq] at h
    obtain ⟨h1, h2, h3⟩ := h
    refine ⟨?_, h2.symm, h3.symm, by omega⟩
    have hadd : c.header.offset + sz + 8 = c.header.offset + (sz + 8) := by
      omega
    rw [← h1, hadd]

theorem tailAlloc_inv (pl : Pool) (sz : Nat) (pl2 : Pool) (ptr src : Nat)
    (issued : List (Nat × Nat))
    (hch : chained pl.chunks pl.next_base)
    (hio : issuedOK pl issued)
    (h : tailAlloc pl sz = some (pl2, ptr, src)) :
    chained pl2.chunks pl2.next_base ∧ issuedOK pl2 ((ptr, src) :: issued) := by
  cases hpc : pl.chunks with
  | nil => unfold tailAlloc at h; rw [hpc] at h; simp at h
  | cons c rest =>
    have hred : tailAlloc pl sz =
        match Chunk.allocate c sz with
        | none => none
        | some (c2, slot, ptr) =>
          some ({ pl with chunks := c2 :: rest,
                          mem := fun a => if a = slot then some c.base else pl.mem a },
                ptr, c.base) := by
      unfold tailAlloc
      rw [hpc]
    rw [hred] at h
    cases hal : Chunk.allocate c sz with
    | none => rw [hal] at h; simp at h
    | some t =>
      obtain ⟨c2, slot, ptr2⟩ := t
      rw [hal] at h
      simp only [Option.some.injEq, Prod.mk.injEq] at h
      obtain ⟨hpl2, hptr, hsrc⟩ := h
      obtain ⟨hc2, hslot, hptr2, hcap⟩ := allocate_some_facts c sz c2 slot ptr2 hal
      rw [hpc] at hch
      obtain ⟨hch1, hch2, hch3⟩ := hch
      subst hpl2 hc2 hslot hptr2 hsrc hptr
      constructor
      · exact ⟨hch1, by show c.header.offset + (sz + 8) ≤ c.cap; omega, hch3⟩
      · intro pr hpr
        rcases List.mem_cons.mp hpr with h1 | h1
        · subst h1
          refine ⟨?_, ?_⟩
          · show (if c.base + c.header.offset + 8 - 8 = c.base + c.header.offset
                then some c.base else pl.mem (c.base + c.header.offset + 8 - 8)) =
              some c.base
            rw [if_pos (by omega)]
          · refine ⟨{ c with header := ⟨c.header.ref_count + 1,
                c.header.offset + (sz + 8)⟩ }, List.mem_cons_self _ _, rfl, ?_, ?_⟩
            · show c.base + 8 ≤ c.base + c.header.offset + 8; omega
            · show c.base + c.header.offset + 8 ≤
                c.base + (c.header.offset + (sz + 8))
              omega
        · obtain ⟨hmem, c0, hc0mem, hc0base, hc0lo, hc0hi⟩ := hio pr h1
          rw [hpc] at hc0mem
          have hne : pr.1 - 8 ≠ c.base + c.header.offset := by
            rcases List.mem_cons.mp hc0mem with h2 | h2
            · subst h2; omega
            · have hd := chained_mem hch3 c0 h2
              omega
          refine ⟨?_, ?_⟩
          · show (if pr.1 - 8 = c.base + c.header.offset
                then some c.base else pl.mem (pr.1 - 8)) = some pr.2
            rw [if_neg hne]
            exact hmem
          · rcases List.mem_cons.mp hc0mem with h2 | h2
            · refine ⟨{ c with header := ⟨c.header.ref_count + 1,
                  c.header.offset + (sz + 8)⟩ }, List.mem_cons_self _ _, ?_, ?_, ?_⟩
              · rw [h2] at hc0base; exact hc0base
              · rw [h2] at hc0lo; exact hc0lo
              · rw [h2] at hc0hi
                show pr.1 ≤ c.base + (c.header.offset + (sz + 8))
                omega
            · exact ⟨c0, List.mem_cons_of_mem _ h2, hc0base, hc0lo, hc0hi⟩

end VLP

namespace VLP

theorem allocateChunk_inv (pl : Pool) (sz : Nat) (cf : Bool)
    (issued : List (Nat × Nat))
    (hch : chained pl.chunks pl.next_base) (hio : issuedOK pl issued) :
    chained (allocateChunk pl sz cf).1.chunks
      (allocateChunk pl sz cf).1.next_base ∧
    issuedOK (allocateChunk pl sz cf).1 issued := by
  cases cf with
  | true => exact ⟨hch, hio⟩
  | false =>
    constructor
    · show chained (Chunk.mkNew pl.next_base
        (if sz > pl.chunk_size then sz + 8 else pl.chunk_size) :: pl.chunks)
        (pl.next_base + (if sz > pl.chunk_size then sz + 8 else pl.chunk_size))
      exact ⟨le_refl _, Nat.zero_le _, hch⟩
    · intro pr hpr
      obtain ⟨hmem, c0, hc0mem, hrest⟩ := hio pr hpr
      exact ⟨hmem, c0, List.mem_cons_of_mem _ hc0mem, hrest⟩

theorem allocLoop_inv (fuel : Nat) (pl : Pool) (sz : Nat) (cp : Bool)
    (oracle : List Bool) (issued : List (Nat × Nat)) (pl2 : Pool)
    (ptr src : Nat)
    (hch : chained pl.chunks pl.next_base) (hio : issuedOK pl issued)
    (h : allocLoop fuel pl sz cp oracle = .ok pl2 ptr src) :
    chained pl2.chunks pl2.next_base ∧ issuedOK pl2 ((ptr, src) :: issued) := by
  induction fuel generalizing pl cp oracle with
  | zero => simp [allocLoop] at h
  | succ n ih =>
    cases cp with
    | false => simp [allocLoop] at h
    | true =>
      unfold allocLoop at h
      cases hta : tailAlloc pl sz with
      | some t =>
        obtain ⟨pl3, ptr3, src3⟩ := t
        rw [hta] at h
        simp only [AllocResult.ok.injEq] at h
        obtain ⟨h1, h2, h3⟩ := h
        subst h1 h2 h3
        exact tailAlloc_inv pl sz pl3 ptr3 src3 issued hch hio hta
      | none =>
        rw [hta] at h
        obtain ⟨hch2, hio2⟩ :=
          allocateChunk_inv pl sz (oracle.headD false) issued hch hio
        exact ih _ _ _ hch2 hio2 h

theorem runAllocs_inv (reqs : List AllocReq) (pl : Pool)
    (issued : List (Nat × Nat))
    (hch : chained pl.chunks pl.next_base) (hio : issuedOK pl issued) :
    chained (runAllocs pl reqs).1.chunks (runAllocs pl reqs).1.next_base ∧
    issuedOK (runAllocs pl reqs).1 ((runAllocs pl reqs).2 ++ issued) := by
  induction reqs generalizing pl issued with
  | nil => exact ⟨hch, hio⟩
  | cons r rs ih =>
    cases hal : allocate r.fuel pl r.sz r.oracle with
    | ok pl2 ptr src =>
      have hred : runAllocs pl (r :: rs) =
          ((runAllocs pl2 rs).1, (ptr, src) :: (runAllocs pl2 rs).2) := by
        simp only [runAllocs]
        rw [hal]
      obtain ⟨hch2, hio2⟩ :=
        allocLoop_inv r.fuel pl _ true r.oracle issued pl2 ptr src hch hio hal
      obtain ⟨hch3, hio3⟩ := ih pl2 ((ptr, src) :: issued) hch2 hio2
      rw [hred]
      refine ⟨hch3, issuedOK_of_mem_imp _ ?_ hio3⟩
      intro pr hpr
      simp only [List.mem_append, List.mem_cons] at hpr ⊢
      tauto
    | nullDeref =>
      have hred : runAllocs pl (r :: rs) = runAllocs pl rs := by
        simp only [runAllocs]
        rw [hal]
      rw [hred]
      exact ih pl issued hch hio
    | outOfFuel =>
      have hred : runAllocs pl (r :: rs) = runAllocs pl rs := by
        simp only [runAllocs]
        rw [hal]
      rw [hred]
      exact ih pl issued hch hio

end VLP

/-- C9: for every pointer returned by a successful `VarLenPool` allocation
in any run of `Allocate` requests against a freshly constructed pool, the
8 bytes immediately preceding the user pointer — the cell `Free` reads —
still hold exactly the data address of the chunk that `Allocate` carved
the pointer out of, and that chunk is still in the chain. -/
theorem c9_backpointer_roundtrip (chunk_size base0 : Nat)
    (reqs : List VLP.AllocReq) (ptr src : Nat)
    (hmem : (ptr, src) ∈ (VLP.runAllocs (VLP.mkPool chunk_size base0) reqs).2) :
    (VLP.runAllocs (VLP.mkPool chunk_size base0) reqs).1.mem (ptr - 8) =
      some src ∧
    ∃ c ∈ (VLP.runAllocs (VLP.mkPool chunk_size base0) reqs).1.chunks,
      c.base = src ∧ c.base + 8 ≤ ptr ∧ ptr ≤ c.base + c.header.offset := by
  have hch : VLP.chained (VLP.mkPool chunk_size base0).chunks
      (VLP.mkPool chunk_size base0).next_base :=
    ⟨le_refl _, Nat.zero_le _, trivial⟩
  have hio : VLP.issuedOK (VLP.mkPool chunk_size base0) [] := by
    intro pr hpr; cases hpr
  obtain ⟨_, hfin⟩ :=
    VLP.runAllocs_inv reqs (VLP.mkPool chunk_size base0) [] hch hio
  have h := hfin (ptr, src) (by simpa using hmem)
  exact h

/-- Witness for C9: a fresh pool with chunk size 32 at data address 0;
allocating 5 bytes (rounded to 8) then 9 bytes (rounded to 16, forcing a
second chunk) yields pointers 8 (from the chunk at 0) and 40 (from the
chunk at 32), and both back-pointer cells read back correctly. -/
theorem c9_backpointer_roundtrip_witness :
    ((VLP.runAllocs (VLP.mkPool 32 0) [⟨2, 5, []⟩, ⟨2, 9, []⟩]).1.mem (8 - 8) =
        some 0 ∧
      ∃ c ∈ (VLP.runAllocs (VLP.mkPool 32 0) [⟨2, 5, []⟩, ⟨2, 9, []⟩]).1.chunks,
        c.base = 0 ∧ c.base + 8 ≤ 8 ∧ 8 ≤ c.base + c.header.offset) ∧
    ((VLP.runAllocs (VLP.mkPool 32 0) [⟨2, 5, []⟩, ⟨2, 9, []⟩]).1.mem (40 - 8) =
        some 32 ∧
      ∃ c ∈ (VLP.runAllocs (VLP.mkPool 32 0) [⟨2, 5, []⟩, ⟨2, 9, []⟩]).1.chunks,
        c.base = 32 ∧ c.base + 8 ≤ 40 ∧ 40 ≤ c.base + c.header.offset) :=
  ⟨c9_backpointer_roundtrip 32 0 [⟨2, 5, []⟩, ⟨2, 9, []⟩] 8 0 (by decide),
   c9_backpointer_roundtrip 32 0 [⟨2, 5, []⟩, ⟨2, 9, []⟩] 40 32 (by decide)⟩
